import Mathlib

/-!
Verification development for the go-money string-amount parser
(`parser` package: `AmountParser.Parse`, `AmountParser.parse`,
`lookupCurrency`, `containsCurrencySymbol`, `NewAmountParser`,
`ParserOptions`).

Strings are modelled as `List Char` (Go iterates runes with
`for _, r := range s`).  64-bit integer arithmetic (`int64`) is modelled
on `Int` with explicit reduction modulo `2 ^ 64` into `[-2^63, 2^63)`.
Fallible operations return `Except Err _` where `Err` mirrors the
package error taxonomy (error kinds only; the Go code additionally wraps
formatting context which no claim inspects).
-/

set_option maxRecDepth 100000

namespace GoMoney

/-- Error taxonomy of the parser package (`ErrEmptyInput`,
`ErrSignsNotAllowed`, ...); `NotADigit` is the ad-hoc error of
`atoiRunes` which is unreachable from `parse`. -/
inductive Err where
  | EmptyInput
  | SignsNotAllowed
  | CurrencySymbolNotAllowed
  | MixedGrouping
  | InvalidCurrencySymbol
  | InvalidISO
  | InvalidNumericCode
  | InvalidCurrencyQuery
  | TooManyDecimals
  | BadChar
  | NoDigits
  | NotADigit
deriving DecidableEq

instance {ε α : Type} [DecidableEq ε] [DecidableEq α] : DecidableEq (Except ε α) :=
  fun a b =>
    match a, b with
    | .ok x, .ok y =>
      if h : x = y then isTrue (by rw [h]) else isFalse (fun hc => h (Except.ok.inj hc))
    | .error x, .error y =>
      if h : x = y then isTrue (by rw [h]) else isFalse (fun hc => h (Except.error.inj hc))
    | .ok _, .error _ => isFalse (fun hc => Except.noConfusion hc)
    | .error _, .ok _ => isFalse (fun hc => Except.noConfusion hc)

/-- Whitespace recognised by Go's `unicode.IsSpace` (used by
`strings.TrimSpace`): the Unicode White_Space code points. -/
def goSpaceChars : List Char :=
  [Char.ofNat 0x09, Char.ofNat 0x0A, Char.ofNat 0x0B, Char.ofNat 0x0C,
   Char.ofNat 0x0D, ' ', Char.ofNat 0x85, Char.ofNat 0xA0,
   Char.ofNat 0x1680, Char.ofNat 0x2000, Char.ofNat 0x2001,
   Char.ofNat 0x2002, Char.ofNat 0x2003, Char.ofNat 0x2004,
   Char.ofNat 0x2005, Char.ofNat 0x2006, Char.ofNat 0x2007,
   Char.ofNat 0x2008, Char.ofNat 0x2009, Char.ofNat 0x200A,
   Char.ofNat 0x2028, Char.ofNat 0x2029, Char.ofNat 0x202F,
   Char.ofNat 0x205F, Char.ofNat 0x3000]

/-- `unicode.IsSpace`. -/
def isSpaceGo (c : Char) : Bool := goSpaceChars.any (fun d => d == c)

/-- Left half of `strings.TrimSpace`. -/
def trimLeft (s : List Char) : List Char := s.dropWhile isSpaceGo

/-- Right half of `strings.TrimSpace`. -/
def trimRight (s : List Char) : List Char := (s.reverse.dropWhile isSpaceGo).reverse

/-- `strings.TrimSpace`. -/
def trimSpace (s : List Char) : List Char := trimRight (trimLeft s)

/-- The no-break-space character (`nbsp` constant of the package). -/
def nbspC : Char := Char.ofNat 0xA0

/-- `strings.ReplaceAll(s, nbsp, space)`: both pattern and replacement
are single characters, so this is a character map. -/
def replaceNbsp (s : List Char) : List Char :=
  s.map (fun c => if c = nbspC then ' ' else c)

/-- List-prefix test (Boolean). -/
def isPrefixL : List Char → List Char → Bool
  | [], _ => true
  | _ :: _, [] => false
  | a :: as, b :: bs => a = b && isPrefixL as bs

/-- `strings.Contains(s, pat)` (`strings.Index(s, pat) != -1`): `pat`
occurs as a contiguous substring of `s`. -/
def containsSub (pat : List Char) : List Char → Bool
  | [] => isPrefixL pat []
  | c :: rest => isPrefixL pat (c :: rest) || containsSub pat rest

/-- Remove the first occurrence of the nonempty pattern `pat`. -/
def removeFirst (pat : List Char) : List Char → List Char
  | [] => []
  | c :: rest =>
    if isPrefixL pat (c :: rest) then (c :: rest).drop pat.length
    else c :: removeFirst pat rest

/-- `strings.Replace(s, pat, "", 1)`: with an empty pattern Go inserts
the empty replacement and returns `s` unchanged. -/
def replaceFirst (s pat : List Char) : List Char :=
  if pat = [] then s else removeFirst pat s

/-- Modelled: the Unicode `Sc` (currency-symbol) general category as
tabulated in Go's `unicode` package, given by its code-point ranges. -/
def scRanges : List (Nat × Nat) :=
  [(0x24, 0x24), (0xA2, 0xA5), (0x58F, 0x58F), (0x60B, 0x60B),
   (0x7FE, 0x7FF), (0x9F2, 0x9F3), (0x9FB, 0x9FB), (0xAF1, 0xAF1),
   (0xBF9, 0xBF9), (0xE3F, 0xE3F), (0x17DB, 0x17DB), (0x20A0, 0x20C0),
   (0xA838, 0xA838), (0xFDFC, 0xFDFC), (0xFE69, 0xFE69),
   (0xFF04, 0xFF04), (0xFFE0, 0xFFE1), (0xFFE5, 0xFFE6),
   (0x11FDD, 0x11FE0), (0x1E2FF, 0x1E2FF), (0x1ECB0, 0x1ECB0)]

/-- `unicode.Is(unicode.Sc, r)`. -/
def isSc (c : Char) : Bool :=
  scRanges.any (fun p => decide (p.1 ≤ c.toNat) && decide (c.toNat ≤ p.2))

/-- Modelled: Go's `strings.ToLower` is the per-rune simple lowercase
map `unicode.ToLower`; embedded here for the character ranges relevant
to the fixed currency-token list (ASCII, Latin-1, Latin Extended-A,
Greek, Cyrillic, Armenian); every other character maps to itself. -/
def toLowerGo (c : Char) : Char :=
  let n := c.toNat
  if 0x41 ≤ n ∧ n ≤ 0x5A then Char.ofNat (n + 32)
  else if 0xC0 ≤ n ∧ n ≤ 0xDE ∧ n ≠ 0xD7 then Char.ofNat (n + 32)
  else if 0x100 ≤ n ∧ n ≤ 0x137 ∧ n % 2 = 0 then Char.ofNat (n + 1)
  else if 0x139 ≤ n ∧ n ≤ 0x148 ∧ n % 2 = 1 then Char.ofNat (n + 1)
  else if 0x14A ≤ n ∧ n ≤ 0x177 ∧ n % 2 = 0 then Char.ofNat (n + 1)
  else if 0x179 ≤ n ∧ n ≤ 0x17E ∧ n % 2 = 1 then Char.ofNat (n + 1)
  else if n = 0x191 then Char.ofNat 0x192
  else if 0x391 ≤ n ∧ n ≤ 0x3A9 ∧ n ≠ 0x3A2 then Char.ofNat (n + 32)
  else if 0x410 ≤ n ∧ n ≤ 0x42F then Char.ofNat (n + 32)
  else if 0x400 ≤ n ∧ n ≤ 0x40F then Char.ofNat (n + 80)
  else if 0x531 ≤ n ∧ n ≤ 0x556 then Char.ofNat (n + 48)
  else c

/-- The fixed token list of `containsCurrencySymbol`, in source order. -/
def currencyTokens : List (List Char) :=
  [".د.إ".data, ".د.ب".data, ".د.ت".data, ".د.ج".data, ".د.ع".data,
   ".د.ك".data, ".د.ل".data, ".د.م".data,
   "a$".data, "ar".data, "b/.".data, "br".data, "bs".data, "bs.".data,
   "bs.s".data, "bz$".data, "c$".data, "cf".data,
   "cfa".data, "cg".data, "chf".data, "d".data, "db".data, "fc".data,
   "fdj".data, "fg".data, "fr".data, "frw".data,
   "ft".data, "g".data, "gs".data, "hk$".data, "j$".data, "k".data,
   "km".data, "kn".data, "kr".data, "ksh".data, "kz".data,
   "kč".data, "l".data, "le".data, "lei".data, "ls".data, "lt".data,
   "mk".data, "mt".data, "mvr".data, "nfk".data, "nt$".data,
   "nu.".data, "oz t".data, "p".data, "p.".data, "q".data, "r".data,
   "r$".data, "rd$".data, "rm".data, "rp".data, "s$".data,
   "s/".data, "sdr".data, "sh".data, "sk".data, "sm".data, "so’m".data,
   "t".data, "t$".data, "tsh".data, "tt$".data, "uf".data,
   "um".data, "ush".data, "vt".data, "z$".data, "zk".data, "zł".data,
   "ƒ".data, "ден".data, "дин.".data, "лв".data, "сом".data,
   "դր.".data, "ლ".data, "元".data]

/-- `containsCurrencySymbol`: any Unicode currency-symbol rune, or any
token from the fixed list contained (case-insensitively) in the input. -/
def containsCurrencySymbol (s : List Char) : Bool :=
  s.any isSc || currencyTokens.any (fun t => containsSub t (s.map toLowerGo))

/-- The sign runes accepted by `containsSign` (`'-'`, `'+'`, `'−'`). -/
def signRunes : List Char := ['-', '+', '−']

/-- `containsSign`: tests whether the first rune is a sign (on the empty
string `utf8.DecodeRuneInString` yields `RuneError`, which is no sign). -/
def containsSign (s : List Char) : Bool :=
  match s with
  | [] => false
  | c :: _ => signRunes.any (fun d => d == c)

/-- Currency metadata, as in the go-money `Currency` struct (the fields
the parser reads, plus the codes used for lookup). -/
structure Currency where
  Decimal : List Char
  Thousand : List Char
  Code : List Char
  Fraction : Nat
  NumericCode : List Char
  Grapheme : List Char
deriving DecidableEq

def BGN : Currency := ⟨".".data, ",".data, "BGN".data, 2, "975".data, "лв".data⟩

def CLF : Currency := ⟨",".data, ".".data, "CLF".data, 4, "990".data, "UF".data⟩

def EUR : Currency := ⟨".".data, ",".data, "EUR".data, 2, "978".data, "€".data⟩

def GBP : Currency := ⟨".".data, ",".data, "GBP".data, 2, "826".data, "£".data⟩

def JPY : Currency := ⟨".".data, ",".data, "JPY".data, 0, "392".data, "¥".data⟩

def LYD : Currency := ⟨".".data, ",".data, "LYD".data, 3, "434".data, ".د.ل".data⟩

def USD : Currency := ⟨".".data, ",".data, "USD".data, 2, "840".data, "$".data⟩

/-- Modelled: the immutable go-money currency reference table (an
external collaborator per the spec); the entries exercised by this
development, with the values of the go-money table. -/
def currencyTable : List Currency := [BGN, CLF, EUR, GBP, JPY, LYD, USD]

/-- `money.GetCurrency` (exact, case-sensitive code lookup). -/
def getCurrency (code : List Char) : Option Currency :=
  currencyTable.find? (fun c => c.Code == code)

/-- `money.GetCurrencyByNumericCode`. -/
def getCurrencyByNumericCode (code : List Char) : Option Currency :=
  currencyTable.find? (fun c => c.NumericCode == code)

/-- `isAlpha3`: exactly three ASCII letters (byte-wise in Go; on a
3-byte string every byte is an ASCII letter iff the string is three
ASCII-letter runes). -/
def isAlpha3 (s : List Char) : Bool :=
  s.length == 3 &&
    s.all (fun ch => ('a' ≤ ch && ch ≤ 'z') || ('A' ≤ ch && ch ≤ 'Z'))

/-- `isNumeric`: nonempty and all ASCII digits (byte-wise in Go, which
agrees with the rune-wise reading since digits are one byte). -/
def isNumeric (s : List Char) : Bool :=
  !(s.isEmpty) && s.all (fun ch => '0' ≤ ch && ch ≤ '9')

/-- `lookupCurrency`. -/
def lookupCurrency (q : List Char) : Except Err Currency :=
  if isAlpha3 q then
    match getCurrency q with
    | some c => .ok c
    | none => .error .InvalidISO
  else if isNumeric q then
    match getCurrencyByNumericCode q with
    | some c => .ok c
    | none => .error .InvalidNumericCode
  else .error .InvalidCurrencyQuery

/-- Reduction of an unbounded integer into the signed 64-bit range
(the value a Go `int64` holds after wrapping arithmetic). -/
def int64wrap (x : Int) : Int := (x + 2 ^ 63) % 2 ^ 64 - 2 ^ 63

/-- Accumulator loop of `atoiRunes`: `n = n*10 + int64(r-'0')`, each
operation wrapping in `int64`. -/
def atoiLoop (n : Int) : List Char → Except Err Int
  | [] => .ok n
  | r :: rs =>
    if r < '0' ∨ '9' < r then .error .NotADigit
    else atoiLoop (int64wrap (int64wrap (n * 10) + ((r.toNat : Int) - ('0'.toNat : Int)))) rs

/-- `atoiRunes`. -/
def atoiRunes (rs : List Char) : Except Err Int := atoiLoop 0 rs

/-- `pow10int64`: exponents 0–9; the Go function panics on any other
argument (a programming error per the spec, unreachable from valid
currency metadata), modelled by the unused default value 0. -/
def pow10int64 : Nat → Int
  | 0 => 1
  | 1 => 10
  | 2 => 100
  | 3 => 1000
  | 4 => 10000
  | 5 => 100000
  | 6 => 1000000
  | 7 => 10000000
  | 8 => 100000000
  | 9 => 1000000000
  | _ => 0

/-- `ParserOptions`. -/
structure ParserOptions where
  AllowCurrencySymbol : Bool
  StrictGrouping : Bool
  AcceptSigns : Bool
deriving DecidableEq

/-- The Go zero value `&ParserOptions{}` that `NewAmountParser` starts
from when at least one option is supplied. -/
def zeroOptions : ParserOptions := ⟨false, false, false⟩

/-- `DefaultOptions`. -/
def DefaultOptions : ParserOptions := ⟨false, false, true⟩

/-- `WithStrictGrouping`. -/
def WithStrictGrouping (val : Bool) : ParserOptions → ParserOptions :=
  fun o => { o with StrictGrouping := val }

/-- `WithAllowCurrencySymbol`. -/
def WithAllowCurrencySymbol (val : Bool) : ParserOptions → ParserOptions :=
  fun o => { o with AllowCurrencySymbol := val }

/-- `WithAcceptSigns`. -/
def WithAcceptSigns (val : Bool) : ParserOptions → ParserOptions :=
  fun o => { o with AcceptSigns := val }

/-- `NewAmountParser`: with no options it uses `DefaultOptions()`;
otherwise it folds the options over the zero-valued struct. -/
def NewAmountParser (opts : List (ParserOptions → ParserOptions)) : ParserOptions :=
  if 0 < opts.length then opts.foldl (fun o f => f o) zeroOptions
  else DefaultOptions

/-- State of the character-scanning loop of `AmountParser.parse`. -/
structure ScanState where
  intDigits : List Char
  fracDigitsRunes : List Char
  hasDec : Bool
  lastSeenRune : Char
deriving DecidableEq

/-- Initial scan state (`lastSeenRune := rune(48)`). -/
def initScanState : ScanState := ⟨[], [], false, Char.ofNat 48⟩

/-- One iteration of the scanning `switch` of `AmountParser.parse`. -/
def scanStep (opt : ParserOptions) (dec : Char) (fracDigits : Nat)
    (st : ScanState) (r : Char) : Except Err ScanState :=
  if '0' ≤ r ∧ r ≤ '9' then
    if st.hasDec then .ok { st with fracDigitsRunes := st.fracDigitsRunes ++ [r] }
    else .ok { st with intDigits := st.intDigits ++ [r] }
  else if r = dec ∧ st.hasDec = false ∧ 0 < fracDigits then
    .ok { st with hasDec := true }
  else if r = ' ' ∨ r = ',' ∨ r = '.' then
    if opt.StrictGrouping then
      if st.hasDec = false ∧ (st.lastSeenRune ≠ Char.ofNat 48 ∧ st.lastSeenRune ≠ r) then
        .error .MixedGrouping
      else .ok { st with lastSeenRune := r }
    else .ok st
  else .error .BadChar

/-- The scanning loop `for _, r := range s`. -/
def scanChars (opt : ParserOptions) (dec : Char) (fracDigits : Nat) :
    List Char → ScanState → Except Err ScanState
  | [], st => .ok st
  | r :: rs, st =>
    match scanStep opt dec fracDigits st r with
    | .error e => .error e
    | .ok st2 => scanChars opt dec fracDigits rs st2

/-- Decimal-separator rune: first rune of `cur.Decimal`, defaulting
to `'.'` when that string is empty. -/
def decChar (cur : Currency) : Char :=
  match cur.Decimal with
  | [] => '.'
  | c :: _ => c

/-- Tail of `AmountParser.parse` after the scan: no-digits check,
fraction-length reconciliation (right-pad with `'0'` or
`ErrTooManyDecimals`), digit-sequence conversion, and assembly
`sign * (intVal*base + fracVal)` in wrapping `int64` arithmetic. -/
def finishScan (cur : Currency) (sign : Int) (st : ScanState) : Except Err Int :=
  if st.intDigits = [] ∧ st.fracDigitsRunes = [] then .error .NoDigits
  else if cur.Fraction < st.fracDigitsRunes.length then .error .TooManyDecimals
  else
    match atoiRunes st.intDigits with
    | .error e => .error e
    | .ok intVal =>
      match atoiRunes (st.fracDigitsRunes ++
          List.replicate (cur.Fraction - st.fracDigitsRunes.length) '0') with
      | .error e => .error e
      | .ok fracVal =>
        .ok (int64wrap (sign *
          int64wrap (int64wrap (intVal * pow10int64 cur.Fraction) + fracVal)))

/-- Currency-symbol extraction step of `AmountParser.parse`: when
symbols are allowed and the string is nonempty, the resolved currency's
grapheme must occur (`strings.Index(s, cur.Grapheme) != -1`, else
`ErrInvalidCurrencySymbol`); its first occurrence is removed and the
string re-trimmed. -/
def symbolStage (opt : ParserOptions) (cur : Currency) (s : List Char) :
    Except Err (List Char) :=
  if opt.AllowCurrencySymbol ∧ s ≠ [] then
    if containsSub cur.Grapheme s = false then .error .InvalidCurrencySymbol
    else .ok (trimSpace (replaceFirst s cur.Grapheme))
  else .ok s

/-- Sign extraction step of `AmountParser.parse`: when signs are
accepted and the string is nonempty, a leading `'−'` or `'-'` records
sign −1 and is consumed (re-trimming), a leading `'+'` is consumed
(re-trimming); otherwise sign +1 with the string unchanged. -/
def extractSign (opt : ParserOptions) (s : List Char) : Int × List Char :=
  if opt.AcceptSigns ∧ s ≠ [] then
    match s with
    | [] => (1, s)
    | r :: rest =>
      if r = '−' ∨ r = '-' then (-1, trimSpace rest)
      else if r = '+' then (1, trimSpace rest)
      else (1, s)
  else (1, s)

/-- Tail of `AmountParser.parse` after sign extraction: post-sign
emptiness check (`ErrNoDigits`), character scan, and `finishScan`. -/
def scanAndFinish (opt : ParserOptions) (cur : Currency) (sign : Int)
    (s3 : List Char) : Except Err Int :=
  if s3 = [] then .error .NoDigits
  else
    match scanChars opt (decChar cur) cur.Fraction s3 initScanState with
    | .error e => .error e
    | .ok st => finishScan cur sign st

/-- Body of `AmountParser.parse` after whitespace normalization. -/
def parseBody (opt : ParserOptions) (cur : Currency) (s1 : List Char) :
    Except Err Int :=
  match symbolStage opt cur s1 with
  | .error e => .error e
  | .ok s2 =>
    let p := extractSign opt s2
    scanAndFinish opt cur p.1 p.2

/-- `AmountParser.parse`: normalizes whitespace
(`strings.TrimSpace(strings.ReplaceAll(s, nbsp, space))`) and runs the
remaining pipeline. -/
def parse (opt : ParserOptions) (s : List Char) (cur : Currency) :
    Except Err Int :=
  parseBody opt cur (trimSpace (replaceNbsp s))

/-- `AmountParser.Parse`: trim, empty-input check, empty-currency
check, currency resolution, sign gate, currency-symbol gate, then
`parse`. -/
def Parse (opt : ParserOptions) (input currency : List Char) :
    Except Err Int :=
  let s := trimSpace input
  if s = [] then .error .EmptyInput
  else if currency = [] then .error .InvalidISO
  else
    match lookupCurrency (trimSpace currency) with
    | .error e => .error e
    | .ok c =>
      if opt.AcceptSigns = false ∧ containsSign s then .error .SignsNotAllowed
      else if opt.AllowCurrencySymbol = false ∧ containsCurrencySymbol s then
        .error .CurrencySymbolNotAllowed
      else parse opt s c

/-- `Parse` through a parser built with `NewAmountParser()` (defaults). -/
def ParseDefault (input currency : String) : Except Err Int :=
  Parse (NewAmountParser []) input.data currency.data

/-! ### Whitespace and trimming lemmas -/

/-! ### Whitespace and trimming lemmas -/

theorem isSpaceGo_mem {c : Char} : isSpaceGo c = true ↔ c ∈ goSpaceChars := by
  unfold isSpaceGo
  rw [List.any_eq_true]
  constructor
  · rintro ⟨d, hd, he⟩
    exact (eq_of_beq he) ▸ hd
  · intro h
    exact ⟨c, h, beq_self_eq_true c⟩

theorem dropWhile_append_eq (p : Char → Bool) (xs ys : List Char) :
    List.dropWhile p (xs ++ ys) =
      if List.dropWhile p xs = [] then List.dropWhile p ys
      else List.dropWhile p xs ++ ys := by
  induction xs with
  | nil => simp
  | cons a xs ih =>
    by_cases h : p a
    · rw [List.cons_append, List.dropWhile_cons, if_pos h, ih, List.dropWhile_cons, if_pos h]
    · rw [List.cons_append, List.dropWhile_cons, if_neg h, List.dropWhile_cons, if_neg h,
        if_neg (by simp), List.cons_append]

theorem dropWhile_idem (p : Char → Bool) (l : List Char) :
    List.dropWhile p (List.dropWhile p l) = List.dropWhile p l := by
  induction l with
  | nil => rfl
  | cons a l ih =>
    by_cases h : p a
    · rw [List.dropWhile_cons, if_pos h, ih]
    · rw [List.dropWhile_cons, if_neg h, List.dropWhile_cons, if_neg h]

theorem trimLeft_cons_nonspace {c : Char} (h : isSpaceGo c = false) (l : List Char) :
    trimLeft (c :: l) = c :: l := by
  rw [trimLeft, List.dropWhile_cons, if_neg (by simp [h])]

theorem trimLeft_allspace_append {W : List Char} (X : List Char)
    (h : ∀ c ∈ W, isSpaceGo c = true) : trimLeft (W ++ X) = trimLeft X := by
  rw [trimLeft, dropWhile_append_eq, if_pos (List.dropWhile_eq_nil_iff.mpr h)]
  rfl

theorem trimRight_allspace_append (X : List Char) {S : List Char}
    (h : ∀ c ∈ S, isSpaceGo c = true) : trimRight (X ++ S) = trimRight X := by
  unfold trimRight
  rw [List.reverse_append, dropWhile_append_eq,
    if_pos (List.dropWhile_eq_nil_iff.mpr (fun c hc => h c (List.mem_reverse.mp hc)))]

theorem trimRight_nil_allspace {l : List Char} (hr : trimRight l = []) :
    ∀ x ∈ l, isSpaceGo x = true := by
  intro x hx
  have h2 : List.dropWhile isSpaceGo l.reverse = [] := by
    have h3 := congrArg List.reverse hr
    rwa [trimRight, List.reverse_reverse, List.reverse_nil] at h3
  exact List.dropWhile_eq_nil_iff.mp h2 x (List.mem_reverse.mpr hx)

theorem trimRight_append_right {ys : List Char} (xs : List Char) (h : trimRight ys ≠ []) :
    trimRight (xs ++ ys) = xs ++ trimRight ys := by
  have h2 : List.dropWhile isSpaceGo ys.reverse ≠ [] := by
    intro hh
    apply h
    rw [trimRight, hh, List.reverse_nil]
  unfold trimRight
  rw [List.reverse_append, dropWhile_append_eq, if_neg h2, List.reverse_append,
    List.reverse_reverse]

theorem trimRight_cons_nonspace {c : Char} (h : isSpaceGo c = false) (l : List Char) :
    trimRight (c :: l) = c :: trimRight l := by
  by_cases hnil : List.dropWhile isSpaceGo l.reverse = []
  · unfold trimRight
    rw [List.reverse_cons, dropWhile_append_eq, if_pos hnil, List.dropWhile_cons,
      if_neg (by simp [h]), hnil]
    rfl
  · unfold trimRight
    rw [List.reverse_cons, dropWhile_append_eq, if_neg hnil, List.reverse_append]
    rfl

theorem trimSpace_cons_nonspace {c : Char} (h : isSpaceGo c = false) (l : List Char) :
    trimSpace (c :: l) = c :: trimRight l := by
  rw [trimSpace, trimLeft_cons_nonspace h, trimRight_cons_nonspace h]

theorem trimLeft_idem (l : List Char) : trimLeft (trimLeft l) = trimLeft l :=
  dropWhile_idem _ l

theorem trimRight_idem (l : List Char) : trimRight (trimRight l) = trimRight l := by
  unfold trimRight
  rw [List.reverse_reverse, dropWhile_idem]

theorem trimLeft_trimRight_comm (l : List Char) :
    trimLeft (trimRight l) = trimRight (trimLeft l) := by
  induction l with
  | nil => rfl
  | cons c l ih =>
    cases hc : isSpaceGo c with
    | true =>
      have hLeft : trimLeft (c :: l) = trimLeft l := by
        rw [trimLeft, List.dropWhile_cons, if_pos hc]
        rfl
      by_cases hr : trimRight l = []
      · have hall : ∀ x ∈ (c :: l), isSpaceGo x = true := by
          intro x hx
          rcases List.mem_cons.mp hx with rfl | hx
          · exact hc
          · exact trimRight_nil_allspace hr x hx
        have h1 : trimRight (c :: l) = [] := by
          rw [trimRight,
            List.dropWhile_eq_nil_iff.mpr (fun x hx => hall x (List.mem_reverse.mp hx)),
            List.reverse_nil]
        rw [h1, hLeft, ← ih, hr]
      · have h1 : trimRight (c :: l) = c :: trimRight l := by
          rw [show c :: l = [c] ++ l from rfl, trimRight_append_right [c] hr,
            List.singleton_append]
        rw [h1, hLeft, ← ih]
        rw [trimLeft, List.dropWhile_cons, if_pos hc]
        rfl
    | false =>
      rw [trimLeft_cons_nonspace hc]
      by_cases hr : trimRight l = []
      · have h1 : trimRight (c :: l) = [c] := by
          unfold trimRight
          rw [List.reverse_cons, dropWhile_append_eq,
            if_pos (List.dropWhile_eq_nil_iff.mpr
              (fun x hx => trimRight_nil_allspace hr x (List.mem_reverse.mp hx))),
            List.dropWhile_cons, if_neg (by simp [hc])]
          rfl
        rw [h1, trimLeft_cons_nonspace hc]
      · have h1 : trimRight (c :: l) = c :: trimRight l := by
          rw [show c :: l = [c] ++ l from rfl, trimRight_append_right [c] hr,
            List.singleton_append]
        rw [h1, trimLeft_cons_nonspace hc]

theorem trimSpace_alt (l : List Char) : trimSpace l = trimLeft (trimRight l) := by
  rw [trimSpace, trimLeft_trimRight_comm]

theorem trimSpace_idem (l : List Char) : trimSpace (trimSpace l) = trimSpace l := by
  show trimRight (trimLeft (trimRight (trimLeft l))) = trimRight (trimLeft l)
  rw [trimLeft_trimRight_comm, trimRight_idem, trimLeft_idem]

theorem trimLeft_sublist (l : List Char) : (trimLeft l).Sublist l :=
  List.dropWhile_sublist _

theorem trimRight_sublist (l : List Char) : (trimRight l).Sublist l := by
  have h := (@List.dropWhile_sublist Char l.reverse isSpaceGo).reverse
  rwa [List.reverse_reverse] at h

theorem trimSpace_sublist (l : List Char) : (trimSpace l).Sublist l :=
  ((trimRight_sublist (trimLeft l)).trans (trimLeft_sublist l))

theorem mem_of_mem_trimSpace {c : Char} {l : List Char} (h : c ∈ trimSpace l) : c ∈ l :=
  (trimSpace_sublist l).subset h

theorem trimLeft_eq_of_trimmed {l : List Char} (h : trimSpace l = l) : trimLeft l = l := by
  have hsub := trimLeft_sublist l
  refine hsub.eq_of_length (Nat.le_antisymm hsub.length_le ?_)
  calc l.length = (trimSpace l).length := by rw [h]
    _ ≤ (trimLeft l).length := (trimRight_sublist (trimLeft l)).length_le

theorem trimRight_eq_of_trimmed {l : List Char} (h : trimSpace l = l) : trimRight l = l := by
  have h2 : trimRight (trimLeft l) = l := h
  rwa [trimLeft_eq_of_trimmed h] at h2

theorem trimRight_decomp (l : List Char) :
    l = trimRight l ++ (l.reverse.takeWhile isSpaceGo).reverse ∧
      ∀ c ∈ (l.reverse.takeWhile isSpaceGo).reverse, isSpaceGo c = true := by
  constructor
  · have h := List.takeWhile_append_dropWhile isSpaceGo l.reverse
    have h2 := congrArg List.reverse h
    rw [List.reverse_append, List.reverse_reverse] at h2
    exact h2.symm
  · intro c hc
    exact List.mem_takeWhile_imp (List.mem_reverse.mp hc)

theorem mem_trimSpace_of_nonspace {c : Char} {l : List Char}
    (hc : isSpaceGo c = false) (h : c ∈ l) : c ∈ trimSpace l := by
  have hdec := List.takeWhile_append_dropWhile isSpaceGo l
  have hmem : c ∈ trimLeft l := by
    rcases List.mem_append.mp (by rw [hdec]; exact h) with h1 | h1
    · exact absurd (List.mem_takeWhile_imp h1) (by simp [hc])
    · exact h1
  obtain ⟨hd, hs⟩ := trimRight_decomp (trimLeft l)
  rcases List.mem_append.mp (by rw [← hd]; exact hmem) with h1 | h1
  · exact h1
  · exact absurd (hs c h1) (by simp [hc])

theorem trimSpace_allspace_append {W : List Char} (X : List Char)
    (h : ∀ c ∈ W, isSpaceGo c = true) : trimSpace (W ++ X) = trimSpace X := by
  rw [trimSpace, trimLeft_allspace_append X h, trimSpace]

theorem trimSpace_append_allspace (X : List Char) {S : List Char}
    (h : ∀ c ∈ S, isSpaceGo c = true) : trimSpace (X ++ S) = trimSpace X := by
  rw [trimSpace_alt, trimRight_allspace_append X h, trimSpace_alt]

theorem trimSpace_trimRight (l : List Char) : trimSpace (trimRight l) = trimSpace l := by
  obtain ⟨hd, hs⟩ := trimRight_decomp l
  conv_rhs => rw [hd]
  rw [trimSpace_append_allspace _ hs]

/-! ### Lemmas about `replaceNbsp` -/

theorem replaceNbsp_space_pres (c : Char) :
    isSpaceGo (if c = nbspC then ' ' else c) = isSpaceGo c := by
  by_cases h : c = nbspC
  · rw [if_pos h, h]; decide
  · rw [if_neg h]

theorem dropWhile_map_pres {p : Char → Bool} {f : Char → Char}
    (hf : ∀ c, p (f c) = p c) (l : List Char) :
    List.dropWhile p (l.map f) = (List.dropWhile p l).map f := by
  induction l with
  | nil => rfl
  | cons a l ih =>
    by_cases h : p a
    · rw [List.map_cons, List.dropWhile_cons, if_pos (by rw [hf]; exact h),
        List.dropWhile_cons, if_pos h, ih]
    · rw [List.map_cons, List.dropWhile_cons, if_neg (by rw [hf]; exact h),
        List.dropWhile_cons, if_neg h, List.map_cons]

theorem trimLeft_replaceNbsp (l : List Char) :
    trimLeft (replaceNbsp l) = replaceNbsp (trimLeft l) :=
  dropWhile_map_pres replaceNbsp_space_pres l

theorem trimRight_replaceNbsp (l : List Char) :
    trimRight (replaceNbsp l) = replaceNbsp (trimRight l) := by
  unfold trimRight replaceNbsp
  rw [← List.map_reverse, dropWhile_map_pres replaceNbsp_space_pres, List.map_reverse]

theorem trimSpace_replaceNbsp (l : List Char) :
    trimSpace (replaceNbsp l) = replaceNbsp (trimSpace l) := by
  rw [trimSpace, trimLeft_replaceNbsp, trimRight_replaceNbsp, trimSpace]

/-! ### Substring and pattern lemmas -/

theorem isPrefixL_nil (l : List Char) : isPrefixL [] l = true := by
  cases l <;> rfl

theorem isPrefixL_cons_ne {a b : Char} (h : a ≠ b) (as bs : List Char) :
    isPrefixL (a :: as) (b :: bs) = false := by
  simp [isPrefixL, h]

theorem containsSub_cons (pat : List Char) (c : Char) (rest : List Char) :
    containsSub pat (c :: rest) = (isPrefixL pat (c :: rest) || containsSub pat rest) := rfl

theorem containsSub_append_left {pat X : List Char} (A : List Char)
    (h : containsSub pat X = true) : containsSub pat (A ++ X) = true := by
  induction A with
  | nil => exact h
  | cons a A ih => rw [List.cons_append, containsSub_cons, ih, Bool.or_true]

theorem containsSub_cons_ne_head {h0 : Char} {t : List Char} {c : Char}
    (h : h0 ≠ c) (X : List Char) :
    containsSub (h0 :: t) (c :: X) = containsSub (h0 :: t) X := by
  rw [containsSub_cons, isPrefixL_cons_ne h, Bool.false_or]

theorem containsSub_allspace_append {h0 : Char} {t : List Char}
    (hns : isSpaceGo h0 = false) (X : List Char) :
    ∀ W : List Char, (∀ c ∈ W, isSpaceGo c = true) →
      containsSub (h0 :: t) (W ++ X) = containsSub (h0 :: t) X := by
  intro W
  induction W with
  | nil => intro _; rfl
  | cons w W ih =>
    intro hW
    have hw : isSpaceGo w = true := hW w (List.mem_cons_self w W)
    have hne : h0 ≠ w := by
      intro hh
      rw [hh, hw] at hns
      exact Bool.noConfusion hns
    rw [List.cons_append, containsSub_cons_ne_head hne]
    exact ih (fun c hc => hW c (List.mem_cons_of_mem w hc))

theorem containsSub_singleton (a : Char) (X : List Char) :
    containsSub [a] X = true ↔ a ∈ X := by
  induction X with
  | nil => simp [containsSub, isPrefixL]
  | cons c X ih =>
    rw [containsSub_cons]
    constructor
    · intro h
      rcases Bool.or_eq_true_iff.mp h with h1 | h1
      · have : a = c := by
          have h2 : (decide (a = c) && isPrefixL [] X) = true := h1
          rcases Bool.and_eq_true_iff.mp h2 with ⟨h3, -⟩
          exact of_decide_eq_true h3
        exact this ▸ List.mem_cons_self a X
      · exact List.mem_cons_of_mem c (ih.mp h1)
    · intro h
      rcases List.mem_cons.mp h with rfl | h1
      · apply Bool.or_eq_true_iff.mpr
        left
        show (decide (a = a) && isPrefixL [] X) = true
        rw [decide_eq_true rfl, isPrefixL_nil, Bool.and_true]
      · exact Bool.or_eq_true_iff.mpr (Or.inr (ih.mpr h1))

theorem removeFirst_cons_ne_head {h0 : Char} {t : List Char} {c : Char}
    (h : h0 ≠ c) (X : List Char) :
    removeFirst (h0 :: t) (c :: X) = c :: removeFirst (h0 :: t) X := by
  simp only [removeFirst, isPrefixL_cons_ne h]
  rfl

theorem removeFirst_allspace_append {h0 : Char} {t : List Char}
    (hns : isSpaceGo h0 = false) (X : List Char) :
    ∀ W : List Char, (∀ c ∈ W, isSpaceGo c = true) →
      removeFirst (h0 :: t) (W ++ X) = W ++ removeFirst (h0 :: t) X := by
  intro W
  induction W with
  | nil => intro _; rfl
  | cons w W ih =>
    intro hW
    have hw : isSpaceGo w = true := hW w (List.mem_cons_self w W)
    have hne : h0 ≠ w := by
      intro hh
      rw [hh, hw] at hns
      exact Bool.noConfusion hns
    rw [List.cons_append, removeFirst_cons_ne_head hne, List.cons_append,
      ih (fun c hc => hW c (List.mem_cons_of_mem w hc))]

theorem mem_removeFirst_subset (pat : List Char) :
    ∀ (X : List Char) (c : Char), c ∈ removeFirst pat X → c ∈ X := by
  intro X
  induction X with
  | nil => intro c h; simp [removeFirst] at h
  | cons a X ih =>
    intro c h
    simp only [removeFirst] at h
    by_cases hp : isPrefixL pat (a :: X) = true
    · rw [if_pos hp] at h
      exact List.drop_subset _ _ h
    · rw [if_neg hp] at h
      rcases List.mem_cons.mp h with rfl | h2
      · exact List.mem_cons_self c X
      · exact List.mem_cons_of_mem a (ih c h2)

/-! ### Sign-extraction lemmas -/

theorem extractSign_cons_nonsign {opt : ParserOptions} {r : Char} (rest : List Char)
    (h1 : r ≠ '−') (h2 : r ≠ '-') (h3 : r ≠ '+') :
    extractSign opt (r :: rest) = (1, r :: rest) := by
  unfold extractSign
  by_cases hA : opt.AcceptSigns = true
  · rw [if_pos ⟨hA, by simp⟩]
    show (if r = '−' ∨ r = '-' then ((-1 : Int), trimSpace rest)
        else if r = '+' then ((1 : Int), trimSpace rest)
        else ((1 : Int), r :: rest)) = ((1 : Int), r :: rest)
    rw [if_neg (fun h => h.elim h1 h2), if_neg h3]
  · rw [if_neg (fun hc => hA hc.1)]

theorem extractSign_cons_minus {opt : ParserOptions} (hA : opt.AcceptSigns = true)
    (rest : List Char) :
    extractSign opt ('-' :: rest) = (-1, trimSpace rest) := by
  unfold extractSign
  rw [if_pos ⟨hA, by simp⟩]
  show (if ('-' : Char) = '−' ∨ ('-' : Char) = '-' then ((-1 : Int), trimSpace rest)
      else if ('-' : Char) = '+' then ((1 : Int), trimSpace rest)
      else ((1 : Int), '-' :: rest)) = ((-1 : Int), trimSpace rest)
  rw [if_pos (Or.inr rfl)]

/-! ### 64-bit wrapping lemmas -/

theorem int64wrap_bounds (x : Int) :
    -(2 ^ 63) ≤ int64wrap x ∧ int64wrap x < 2 ^ 63 := by
  unfold int64wrap
  have h1 : (2 : Int) ^ 63 = 9223372036854775808 := by norm_num
  have h2 : (2 : Int) ^ 64 = 18446744073709551616 := by norm_num
  rw [h1, h2]
  omega

theorem int64wrap_of_bounds {x : Int} (h1 : -(2 ^ 63) ≤ x) (h2 : x < 2 ^ 63) :
    int64wrap x = x := by
  unfold int64wrap
  have e1 : (2 : Int) ^ 63 = 9223372036854775808 := by norm_num
  have e2 : (2 : Int) ^ 64 = 18446744073709551616 := by norm_num
  rw [e1, e2]
  rw [e1] at h1 h2
  omega

/-! ### Negation through the post-sign pipeline -/

theorem finishScan_neg {cur : Currency} {st : ScanState} {v : Int}
    (h : finishScan cur 1 st = .ok v) :
    finishScan cur (-1) st = .ok (int64wrap (-v)) := by
  unfold finishScan at h ⊢
  by_cases h1 : st.intDigits = [] ∧ st.fracDigitsRunes = []
  · rw [if_pos h1] at h
    exact absurd h (by simp)
  · rw [if_neg h1] at h ⊢
    by_cases h2 : cur.Fraction < st.fracDigitsRunes.length
    · rw [if_pos h2] at h
      exact absurd h (by simp)
    · rw [if_neg h2] at h ⊢
      cases hi : atoiRunes st.intDigits with
      | error e => simp [hi] at h
      | ok intVal =>
        simp only [hi] at h ⊢
        cases hf : atoiRunes (st.fracDigitsRunes ++
            List.replicate (cur.Fraction - st.fracDigitsRunes.length) '0') with
        | error e => simp [hf] at h
        | ok fracVal =>
          simp only [hf] at h ⊢
          have hv : int64wrap (1 *
              int64wrap (int64wrap (intVal * pow10int64 cur.Fraction) + fracVal)) = v :=
            Except.ok.inj h
          have hb := int64wrap_bounds (int64wrap (intVal * pow10int64 cur.Fraction) + fracVal)
          have hvm : v = int64wrap (int64wrap (intVal * pow10int64 cur.Fraction) + fracVal) := by
            rw [← hv, one_mul, int64wrap_of_bounds hb.1 hb.2]
          rw [hvm, neg_one_mul]

theorem scanAndFinish_neg {opt : ParserOptions} {cur : Currency} {s3 : List Char} {v : Int}
    (h : scanAndFinish opt cur 1 s3 = .ok v) :
    scanAndFinish opt cur (-1) s3 = .ok (int64wrap (-v)) := by
  unfold scanAndFinish at h ⊢
  by_cases h1 : s3 = []
  · rw [if_pos h1] at h
    exact absurd h (by simp)
  · rw [if_neg h1] at h ⊢
    cases hs : scanChars opt (decChar cur) cur.Fraction s3 initScanState with
    | error e => simp [hs] at h
    | ok st =>
      simp only [hs] at h ⊢
      exact finishScan_neg h

/-! ### Decidable facts about the token list, the space set and the table -/

theorem tokens_facts :
    currencyTokens.all (fun t =>
      match t with
      | [] => false
      | h :: _ => !(isSpaceGo h) && !(h == '-')) = true := by decide

theorem tokens_head {t : List Char} (ht : t ∈ currencyTokens) :
    ∃ h tl, t = h :: tl ∧ isSpaceGo h = false ∧ h ≠ '-' := by
  have hall := List.all_eq_true.mp tokens_facts t ht
  cases t with
  | nil => exact absurd hall (by simp)
  | cons h tl =>
    obtain ⟨ha, hb⟩ := Bool.and_eq_true_iff.mp hall
    exact ⟨h, tl, rfl, by simpa using ha, by simpa using hb⟩

theorem isSc_space_false {c : Char} (h : isSpaceGo c = true) : isSc c = false := by
  have hall : goSpaceChars.all (fun c => !(isSc c)) = true := by decide
  simpa using List.all_eq_true.mp hall c (isSpaceGo_mem.mp h)

theorem toLowerGo_space_fix {c : Char} (h : isSpaceGo c = true) : toLowerGo c = c := by
  have hall : goSpaceChars.all (fun c => toLowerGo c == c) = true := by decide
  exact eq_of_beq (List.all_eq_true.mp hall c (isSpaceGo_mem.mp h))

theorem isSc_minus : isSc '-' = false := by decide

theorem toLowerGo_minus : toLowerGo '-' = '-' := by decide

theorem isSpaceGo_minus : isSpaceGo '-' = false := by decide

theorem table_grapheme_facts :
    currencyTable.all (fun cur =>
      match cur.Grapheme with
      | [] => false
      | h :: _ => !(isSpaceGo h) && !(h == '-')) = true := by decide

theorem grapheme_head {cur : Currency} (h : cur ∈ currencyTable) :
    ∃ g t, cur.Grapheme = g :: t ∧ isSpaceGo g = false ∧ g ≠ '-' := by
  have hall := List.all_eq_true.mp table_grapheme_facts cur h
  cases hg : cur.Grapheme with
  | nil => rw [hg] at hall; exact absurd hall (by simp)
  | cons g t =>
    rw [hg] at hall
    obtain ⟨ha, hb⟩ := Bool.and_eq_true_iff.mp hall
    exact ⟨g, t, rfl, by simpa using ha, by simpa using hb⟩

theorem lookup_mem {q : List Char} {cur : Currency}
    (h : lookupCurrency q = .ok cur) : cur ∈ currencyTable := by
  unfold lookupCurrency at h
  by_cases h1 : isAlpha3 q = true
  · rw [if_pos h1] at h
    cases hg : getCurrency q with
    | none => simp [hg] at h
    | some c =>
      simp only [hg] at h
      have hc : c = cur := Except.ok.inj h
      exact hc ▸ List.mem_of_find?_eq_some hg
  · rw [if_neg h1] at h
    by_cases h2 : isNumeric q = true
    · rw [if_pos h2] at h
      cases hg : getCurrencyByNumericCode q with
      | none => simp [hg] at h
      | some c =>
        simp only [hg] at h
        have hc : c = cur := Except.ok.inj h
        exact hc ▸ List.mem_of_find?_eq_some hg
    · rw [if_neg h2] at h
      exact absurd h (by simp)

/-! ### Invariance of the currency-symbol gate -/

theorem anyCongr {α : Type} {p q : α → Bool} :
    ∀ l : List α, (∀ a ∈ l, p a = q a) → l.any p = l.any q := by
  intro l
  induction l with
  | nil => intro _; rfl
  | cons a l ih =>
    intro h
    rw [List.any_cons, List.any_cons, h a (List.mem_cons_self a l),
      ih (fun b hb => h b (List.mem_cons_of_mem a hb))]

theorem ccs_cons_skip {c : Char} (hSc : isSc c = false)
    (htok : ∀ t ∈ currencyTokens, ∃ h tl, t = h :: tl ∧ h ≠ toLowerGo c)
    (X : List Char) :
    containsCurrencySymbol (c :: X) = containsCurrencySymbol X := by
  unfold containsCurrencySymbol
  rw [List.any_cons, hSc, Bool.false_or, List.map_cons]
  congr 1
  apply anyCongr
  intro t ht
  obtain ⟨h, tl, rfl, hne⟩ := htok t ht
  exact containsSub_cons_ne_head hne _

theorem ccs_minus_cons (X : List Char) :
    containsCurrencySymbol ('-' :: X) = containsCurrencySymbol X := by
  apply ccs_cons_skip isSc_minus
  intro t ht
  obtain ⟨h, tl, he, hs, hm⟩ := tokens_head ht
  exact ⟨h, tl, he, by rw [toLowerGo_minus]; exact hm⟩

theorem ccs_allspace_append (X : List Char) :
    ∀ W : List Char, (∀ c ∈ W, isSpaceGo c = true) →
      containsCurrencySymbol (W ++ X) = containsCurrencySymbol X := by
  intro W
  induction W with
  | nil => intro _; rfl
  | cons w W ih =>
    intro hW
    have hw := hW w (List.mem_cons_self w W)
    have hTok : ∀ t ∈ currencyTokens, ∃ h tl, t = h :: tl ∧ h ≠ toLowerGo w := by
      intro t ht
      obtain ⟨h, tl, he, hs, hm⟩ := tokens_head ht
      refine ⟨h, tl, he, ?_⟩
      rw [toLowerGo_space_fix hw]
      intro hhw
      rw [hhw, hw] at hs
      exact Bool.noConfusion hs
    rw [List.cons_append, ccs_cons_skip (isSc_space_false hw) hTok (W ++ X)]
    exact ih (fun c hc => hW c (List.mem_cons_of_mem w hc))

/-! ### Helpers for `symbolStage`, `parseBody` and `Parse` -/

theorem extractSign_nil (opt : ParserOptions) : extractSign opt [] = (1, []) := by
  unfold extractSign
  rw [if_neg (fun hc => hc.2 rfl)]

theorem scanAndFinish_nil (opt : ParserOptions) (cur : Currency) (sign : Int) :
    scanAndFinish opt cur sign [] = .error .NoDigits := by
  unfold scanAndFinish
  rw [if_pos rfl]

theorem symbolStage_not_allowed {opt : ParserOptions} {cur : Currency} {s : List Char}
    (h : opt.AllowCurrencySymbol = false) : symbolStage opt cur s = .ok s := by
  unfold symbolStage
  rw [if_neg (fun hc => by rw [h] at hc; exact Bool.noConfusion hc.1)]

theorem symbolStage_found {opt : ParserOptions} {cur : Currency} {s : List Char}
    (hAllow : opt.AllowCurrencySymbol = true) (hne : s ≠ [])
    (hfound : containsSub cur.Grapheme s = true) :
    symbolStage opt cur s = .ok (trimSpace (replaceFirst s cur.Grapheme)) := by
  unfold symbolStage
  rw [if_pos ⟨hAllow, hne⟩, if_neg (by simp [hfound])]

theorem symbolStage_ok_inv {opt : ParserOptions} {cur : Currency} {s s2 : List Char}
    (hAllow : opt.AllowCurrencySymbol = true) (hne : s ≠ [])
    (h : symbolStage opt cur s = .ok s2) :
    s2 = trimSpace (replaceFirst s cur.Grapheme) := by
  unfold symbolStage at h
  rw [if_pos ⟨hAllow, hne⟩] at h
  by_cases hf : containsSub cur.Grapheme s = false
  · rw [if_pos hf] at h
    exact absurd h (by simp)
  · rw [if_neg hf] at h
    exact (Except.ok.inj h).symm

theorem parseBody_ok_of_symbol {opt : ParserOptions} {cur : Currency} {s1 s2 : List Char}
    (h : symbolStage opt cur s1 = .ok s2) :
    parseBody opt cur s1 =
      scanAndFinish opt cur (extractSign opt s2).1 (extractSign opt s2).2 := by
  unfold parseBody
  rw [h]

theorem parseBody_err_of_symbol {opt : ParserOptions} {cur : Currency} {s1 : List Char}
    {e : Err} (h : symbolStage opt cur s1 = .error e) :
    parseBody opt cur s1 = .error e := by
  unfold parseBody
  rw [h]

theorem mem_replaceFirst_subset (pat X : List Char) {c : Char}
    (h : c ∈ replaceFirst X pat) : c ∈ X := by
  unfold replaceFirst at h
  by_cases hp : pat = []
  · rwa [if_pos hp] at h
  · rw [if_neg hp] at h
    exact mem_removeFirst_subset pat X c h

theorem replaceNbsp_cons (c : Char) (l : List Char) :
    replaceNbsp (c :: l) = (if c = nbspC then ' ' else c) :: replaceNbsp l := rfl

theorem replaceNbsp_append (a b : List Char) :
    replaceNbsp (a ++ b) = replaceNbsp a ++ replaceNbsp b := List.map_append _ a b

theorem replaceNbsp_minus (l : List Char) :
    replaceNbsp ('-' :: l) = '-' :: replaceNbsp l := by
  rw [replaceNbsp_cons, if_neg (by decide)]

/-- Core of the sign-negation property: at the `parseBody` level,
prefixing `'-'` (possibly followed by the original leading whitespace)
to a trimmed, sign-free string negates a successful parse in wrapping
`int64` arithmetic. -/
theorem parseBody_neg {opt : ParserOptions} {cur : Currency} {W Z : List Char} {v : Int}
    (hA : opt.AcceptSigns = true)
    (hW : ∀ c ∈ W, isSpaceGo c = true)
    (hZt : trimSpace Z = Z)
    (hZne : Z ≠ [])
    (hNoSign : ∀ c ∈ Z, c ≠ '-' ∧ c ≠ '+' ∧ c ≠ '−')
    (hG : ∃ g t, cur.Grapheme = g :: t ∧ isSpaceGo g = false ∧ g ≠ '-')
    (hPos : parseBody opt cur Z = .ok v) :
    parseBody opt cur ('-' :: (W ++ Z)) = .ok (int64wrap (-v)) := by
  obtain ⟨g, gt, hGe, hGs, hGm⟩ := hG
  by_cases hAllow : opt.AllowCurrencySymbol = true
  · cases hsym : symbolStage opt cur Z with
    | error e =>
      rw [parseBody_err_of_symbol hsym] at hPos
      exact absurd hPos (by simp)
    | ok s2 =>
      rw [parseBody_ok_of_symbol hsym] at hPos
      have hs2 := symbolStage_ok_inv hAllow hZne hsym
      subst hs2
      have hfound : containsSub cur.Grapheme Z = true := by
        by_cases hc : containsSub cur.Grapheme Z = true
        · exact hc
        · exfalso
          have hsym2 : symbolStage opt cur Z = .error .InvalidCurrencySymbol := by
            unfold symbolStage
            rw [if_pos ⟨hAllow, hZne⟩,
              if_pos (by cases hcc : containsSub cur.Grapheme Z with
                | false => rfl
                | true => exact absurd hcc hc)]
          rw [hsym2] at hsym
          exact Except.noConfusion hsym
      have hfound2 : containsSub cur.Grapheme ('-' :: (W ++ Z)) = true := by
        rw [show ('-' :: (W ++ Z)) = ('-' :: W) ++ Z from rfl]
        exact containsSub_append_left _ hfound
      have hsym2 := symbolStage_found hAllow (by simp) hfound2
      rw [parseBody_ok_of_symbol hsym2]
      have hrf2 : replaceFirst ('-' :: (W ++ Z)) cur.Grapheme
          = '-' :: (W ++ replaceFirst Z cur.Grapheme) := by
        unfold replaceFirst
        rw [hGe, if_neg (by simp), if_neg (by simp),
          removeFirst_cons_ne_head hGm, removeFirst_allspace_append hGs Z W hW]
      rw [hrf2, trimSpace_cons_nonspace isSpaceGo_minus, extractSign_cons_minus hA,
        trimSpace_trimRight, trimSpace_allspace_append _ hW]
      cases hsc : trimSpace (replaceFirst Z cur.Grapheme) with
      | nil =>
        rw [hsc, extractSign_nil] at hPos
        have hnil := scanAndFinish_nil opt cur 1
        exact absurd (hnil ▸ hPos) (by simp)
      | cons c t =>
        have hcmem : c ∈ Z :=
          mem_replaceFirst_subset cur.Grapheme Z
            (mem_of_mem_trimSpace (hsc ▸ List.mem_cons_self c t))
        obtain ⟨n1, n2, n3⟩ := hNoSign c hcmem
        rw [hsc, extractSign_cons_nonsign t n3 n1 n2] at hPos
        exact scanAndFinish_neg hPos
  · have hAf : opt.AllowCurrencySymbol = false := by
      cases hopt : opt.AllowCurrencySymbol with
      | false => rfl
      | true => exact absurd hopt hAllow
    rw [parseBody_ok_of_symbol (symbolStage_not_allowed hAf)] at hPos
    rw [parseBody_ok_of_symbol (symbolStage_not_allowed hAf),
      extractSign_cons_minus hA, trimSpace_allspace_append Z hW, hZt]
    cases Z with
    | nil => exact absurd rfl hZne
    | cons c t =>
      obtain ⟨n1, n2, n3⟩ := hNoSign c (List.mem_cons_self c t)
      rw [extractSign_cons_nonsign t n3 n1 n2] at hPos
      exact scanAndFinish_neg hPos

theorem Parse_ok_elim {opt : ParserOptions} {input q : List Char} {v : Int}
    (h : Parse opt input q = .ok v) :
    trimSpace input ≠ [] ∧ q ≠ [] ∧
      ∃ cur, lookupCurrency (trimSpace q) = .ok cur ∧
        ¬(opt.AcceptSigns = false ∧ containsSign (trimSpace input) = true) ∧
        ¬(opt.AllowCurrencySymbol = false ∧ containsCurrencySymbol (trimSpace input) = true) ∧
        parse opt (trimSpace input) cur = .ok v := by
  simp only [Parse] at h
  by_cases h1 : trimSpace input = []
  · rw [if_pos h1] at h
    exact absurd h (by simp)
  · rw [if_neg h1] at h
    by_cases h2 : q = []
    · rw [if_pos h2] at h
      exact absurd h (by simp)
    · rw [if_neg h2] at h
      cases hl : lookupCurrency (trimSpace q) with
      | error e => simp [hl] at h
      | ok cur =>
        simp only [hl] at h
        by_cases h3 : opt.AcceptSigns = false ∧ containsSign (trimSpace input) = true
        · rw [if_pos h3] at h
          exact absurd h (by simp)
        · rw [if_neg h3] at h
          by_cases h4 : opt.AllowCurrencySymbol = false ∧
              containsCurrencySymbol (trimSpace input) = true
          · rw [if_pos h4] at h
            exact absurd h (by simp)
          · rw [if_neg h4] at h
            exact ⟨h1, h2, cur, rfl, h3, h4, h⟩

theorem Parse_intro {opt : ParserOptions} {input q : List Char} {cur : Currency}
    {r : Except Err Int}
    (h1 : trimSpace input ≠ []) (h2 : q ≠ [])
    (hl : lookupCurrency (trimSpace q) = .ok cur)
    (h3 : ¬(opt.AcceptSigns = false ∧ containsSign (trimSpace input) = true))
    (h4 : ¬(opt.AllowCurrencySymbol = false ∧ containsCurrencySymbol (trimSpace input) = true))
    (hp : parse opt (trimSpace input) cur = r) :
    Parse opt input q = r := by
  simp only [Parse, hl]
  rw [if_neg h1, if_neg h2, if_neg h3, if_neg h4]
  exact hp

/-! ### Scan-automaton lemmas -/

theorem scanStep_digit {opt : ParserOptions} {dec : Char} {frac : Nat} {st : ScanState}
    {r : Char} (h1 : '0' ≤ r) (h2 : r ≤ '9') :
    scanStep opt dec frac st r =
      .ok (if st.hasDec then { st with fracDigitsRunes := st.fracDigitsRunes ++ [r] }
           else { st with intDigits := st.intDigits ++ [r] }) := by
  unfold scanStep
  rw [if_pos ⟨h1, h2⟩]
  by_cases hd : st.hasDec = true
  · rw [if_pos hd, if_pos hd]
  · rw [if_neg hd, if_neg hd]

theorem scanStep_group {opt : ParserOptions} {dec : Char} {frac : Nat} {st : ScanState}
    {r : Char} (hg : r = ' ' ∨ r = ',' ∨ r = '.')
    (hnotdec : ¬(r = dec ∧ st.hasDec = false ∧ 0 < frac)) :
    scanStep opt dec frac st r =
      if opt.StrictGrouping then
        if st.hasDec = false ∧ (st.lastSeenRune ≠ Char.ofNat 48 ∧ st.lastSeenRune ≠ r)
        then .error .MixedGrouping
        else .ok { st with lastSeenRune := r }
      else .ok st := by
  unfold scanStep
  have hnd : ¬('0' ≤ r ∧ r ≤ '9') := by
    rcases hg with rfl | rfl | rfl <;> decide
  rw [if_neg hnd, if_neg hnotdec, if_pos hg]

theorem scanChars_cons_ok {opt : ParserOptions} {dec : Char} {frac : Nat}
    {st st2 : ScanState} {r : Char} (rs : List Char)
    (h : scanStep opt dec frac st r = .ok st2) :
    scanChars opt dec frac (r :: rs) st = scanChars opt dec frac rs st2 := by
  show (match scanStep opt dec frac st r with
    | Except.error e => Except.error e
    | Except.ok st2 => scanChars opt dec frac rs st2) = _
  rw [h]

theorem scanChars_cons_err {opt : ParserOptions} {dec : Char} {frac : Nat}
    {st : ScanState} {e : Err} {r : Char} (rs : List Char)
    (h : scanStep opt dec frac st r = .error e) :
    scanChars opt dec frac (r :: rs) st = .error e := by
  show (match scanStep opt dec frac st r with
    | Except.error e => Except.error e
    | Except.ok st2 => scanChars opt dec frac rs st2) = _
  rw [h]

theorem scanChars_append_ok {opt : ParserOptions} {dec : Char} {frac : Nat}
    {xs : List Char} {st st1 : ScanState} (ys : List Char)
    (h : scanChars opt dec frac xs st = .ok st1) :
    scanChars opt dec frac (xs ++ ys) st = scanChars opt dec frac ys st1 := by
  induction xs generalizing st with
  | nil =>
    have h1 : st = st1 := Except.ok.inj h
    rw [List.nil_append, h1]
  | cons x xs ih =>
    cases hs : scanStep opt dec frac st x with
    | error e =>
      rw [scanChars_cons_err xs hs] at h
      exact absurd h (by simp)
    | ok st2 =>
      rw [List.cons_append, scanChars_cons_ok (xs ++ ys) hs]
      rw [scanChars_cons_ok xs hs] at h
      exact ih h

theorem scan_digits {opt : ParserOptions} {dec : Char} {frac : Nat} :
    ∀ d : List Char, (∀ c ∈ d, '0' ≤ c ∧ c ≤ '9') →
    ∀ (i f : List Char) (l : Char),
      scanChars opt dec frac d ⟨i, f, false, l⟩ = .ok ⟨i ++ d, f, false, l⟩ := by
  intro d
  induction d with
  | nil =>
    intro _ i f l
    rw [List.append_nil]
    rfl
  | cons a d ih =>
    intro hd i f l
    obtain ⟨h1, h2⟩ := hd a (List.mem_cons_self a d)
    have hstep : scanStep opt dec frac ⟨i, f, false, l⟩ a = .ok ⟨i ++ [a], f, false, l⟩ := by
      rw [scanStep_digit h1 h2, if_neg (by simp)]
    rw [scanChars_cons_ok d hstep,
      ih (fun c hc => hd c (List.mem_cons_of_mem a hc)) (i ++ [a]) f l,
      List.append_assoc]
    rfl

theorem scan_mid {opt : ParserOptions} {dec : Char} {frac : Nat} {g1 : Char}
    (hstrict : opt.StrictGrouping = true)
    (hg1 : g1 = ' ' ∨ g1 = ',' ∨ g1 = '.')
    (hnd : ¬(g1 = dec ∧ 0 < frac)) :
    ∀ mid : List Char, (∀ c ∈ mid, ('0' ≤ c ∧ c ≤ '9') ∨ c = g1) →
    ∀ i f : List Char,
      ∃ i2 f2, scanChars opt dec frac mid ⟨i, f, false, g1⟩ = .ok ⟨i2, f2, false, g1⟩ := by
  intro mid
  induction mid with
  | nil => intro _ i f; exact ⟨i, f, rfl⟩
  | cons a mid ih =>
    intro hm i f
    rcases hm a (List.mem_cons_self a mid) with hdig | rfl
    · have hstep : scanStep opt dec frac ⟨i, f, false, g1⟩ a
          = .ok ⟨i ++ [a], f, false, g1⟩ := by
        rw [scanStep_digit hdig.1 hdig.2, if_neg (by simp)]
      obtain ⟨i2, f2, hsc⟩ := ih (fun c hc => hm c (List.mem_cons_of_mem a hc)) (i ++ [a]) f
      exact ⟨i2, f2, by rw [scanChars_cons_ok mid hstep, hsc]⟩
    · have hstep : scanStep opt dec frac ⟨i, f, false, a⟩ a = .ok ⟨i, f, false, a⟩ := by
        rw [scanStep_group hg1 (fun hc => hnd ⟨hc.1, hc.2.2⟩), if_pos hstrict,
          if_neg (fun hc => hc.2.2 rfl)]
      obtain ⟨i2, f2, hsc⟩ := ih (fun c hc => hm c (List.mem_cons_of_mem a hc)) i f
      exact ⟨i2, f2, by rw [scanChars_cons_ok mid hstep, hsc]⟩

theorem lookup_ok_ne_nil {q : List Char} {cur : Currency}
    (h : lookupCurrency (trimSpace q) = .ok cur) : q ≠ [] := by
  intro hq
  rw [hq] at h
  have h2 : lookupCurrency (trimSpace ([] : List Char)) = .error .InvalidCurrencyQuery := by
    decide
  rw [h2] at h
  exact Except.noConfusion h

/-! ### Claim theorems -/

/-- C2: when `accept_signs` is true, for every input with no explicit
sign (no `'-'`, `'+'` or `'−'` character anywhere) on which `Parse`
succeeds, parsing the same string with `"-"` prepended also succeeds and
returns the negated value.  Negation is the parser's 64-bit negation
(`int64wrap (-v)`), which coincides with exact negation whenever `-v` is
representable in `int64` — the result type of the Go function. -/
theorem C2_sign_negation (opt : ParserOptions) (input q : List Char) (v : Int)
    (hA : opt.AcceptSigns = true)
    (hNoSign : ∀ c ∈ input, c ≠ '-' ∧ c ≠ '+' ∧ c ≠ '−')
    (h : Parse opt input q = .ok v) :
    Parse opt ('-' :: input) q = .ok (int64wrap (-v)) := by
  obtain ⟨h1, h2, cur, hl, hg3, hg4, hp⟩ := Parse_ok_elim h
  have hWsp : ∀ c ∈ input.takeWhile isSpaceGo, isSpaceGo c = true :=
    fun c hc => List.mem_takeWhile_imp hc
  have hdec : input = input.takeWhile isSpaceGo ++ trimLeft input :=
    (List.takeWhile_append_dropWhile isSpaceGo input).symm
  have hTR : trimRight input = input.takeWhile isSpaceGo ++ trimSpace input := by
    conv_lhs => rw [hdec]
    exact trimRight_append_right _ h1
  have hTneg : trimSpace ('-' :: input)
      = '-' :: (input.takeWhile isSpaceGo ++ trimSpace input) := by
    rw [trimSpace_cons_nonspace isSpaceGo_minus, hTR]
  have hZ : trimSpace (replaceNbsp (trimSpace input)) = replaceNbsp (trimSpace input) := by
    rw [trimSpace_replaceNbsp, trimSpace_idem]
  have hparse_pos : parseBody opt cur (replaceNbsp (trimSpace input)) = .ok v := by
    have he : parse opt (trimSpace input) cur
        = parseBody opt cur (replaceNbsp (trimSpace input)) := by
      unfold parse
      rw [hZ]
    rwa [he] at hp
  have hmapW : ∀ c ∈ replaceNbsp (input.takeWhile isSpaceGo), isSpaceGo c = true := by
    intro c hc
    obtain ⟨d, hd, rfl⟩ := List.mem_map.mp hc
    rw [replaceNbsp_space_pres d]
    exact hWsp d hd
  have hZne : replaceNbsp (trimSpace input) ≠ [] := by
    intro hnil
    apply h1
    have hlen := congrArg List.length hnil
    simp only [replaceNbsp, List.length_map, List.length_nil] at hlen
    exact List.eq_nil_of_length_eq_zero hlen
  have hZnosign : ∀ c ∈ replaceNbsp (trimSpace input),
      c ≠ '-' ∧ c ≠ '+' ∧ c ≠ '−' := by
    intro c hc
    obtain ⟨d, hd, rfl⟩ := List.mem_map.mp hc
    by_cases hdn : d = nbspC
    · rw [if_pos hdn]
      exact ⟨by decide, by decide, by decide⟩
    · rw [if_neg hdn]
      exact hNoSign d (mem_of_mem_trimSpace hd)
  have hGr : ∃ g t, cur.Grapheme = g :: t ∧ isSpaceGo g = false ∧ g ≠ '-' :=
    grapheme_head (lookup_mem hl)
  have hneg := parseBody_neg hA hmapW hZ hZne hZnosign hGr hparse_pos
  have hstr : trimSpace (replaceNbsp (trimSpace ('-' :: input)))
      = '-' :: (replaceNbsp (input.takeWhile isSpaceGo) ++ replaceNbsp (trimSpace input)) := by
    have hne2 : trimRight (replaceNbsp (trimSpace input)) ≠ [] := by
      rw [trimRight_eq_of_trimmed hZ]
      exact hZne
    rw [hTneg, replaceNbsp_minus, replaceNbsp_append,
      trimSpace_cons_nonspace isSpaceGo_minus, trimRight_append_right _ hne2,
      trimRight_eq_of_trimmed hZ]
  apply @Parse_intro opt ('-' :: input) q cur (Except.ok (int64wrap (-v)))
  · rw [hTneg]
    simp
  · exact h2
  · exact hl
  · intro hc
    rw [hA] at hc
    exact Bool.noConfusion hc.1
  · intro hc
    apply hg4
    refine ⟨hc.1, ?_⟩
    have hccs := hc.2
    rw [hTneg, ccs_minus_cons,
      ccs_allspace_append (trimSpace input) (input.takeWhile isSpaceGo) hWsp] at hccs
    exact hccs
  · unfold parse
    rw [hstr]
    exact hneg

/-- C2 witness: `Parse` with defaults maps `"5"`/`JPY` to 5, and
prepending `'-'` yields the negated value. -/
theorem C2_sign_negation_witness :
    Parse DefaultOptions ('-' :: "5".data) "JPY".data = .ok (int64wrap (-(5 : Int))) :=
  C2_sign_negation DefaultOptions "5".data "JPY".data 5 (by decide) (by decide) (by decide)

/-- C1: for every currency of the reference table, parsing `"1"`
followed by the currency's decimal separator and `fraction_digits`
zeros yields the same minor-unit value as parsing `"1"` (the fractional
part is right-padded with `'0'`); in particular
`parse("2,28", "CLF", defaults)` is 22800 (CLF has 4 fraction digits,
`"28"` padded to `"2800"`). -/
theorem C1_pad_equiv :
    (∀ cur ∈ currencyTable,
      Parse (NewAmountParser []) ("1".data ++ decChar cur :: List.replicate cur.Fraction '0')
          cur.Code
        = Parse (NewAmountParser []) "1".data cur.Code)
    ∧ ParseDefault "2,28" "CLF" = .ok 22800 := by
  exact ⟨by decide, by decide⟩

/-- C1 witness: the padding equivalence instantiated at EUR
(`parse("1.00") = parse("1")` in minor units). -/
theorem C1_pad_equiv_witness :
    Parse (NewAmountParser []) ("1".data ++ decChar EUR :: List.replicate EUR.Fraction '0')
        EUR.Code
      = Parse (NewAmountParser []) "1".data EUR.Code :=
  C1_pad_equiv.1 EUR (by decide)

/-- C3 counterexample: for JPY (`fraction_digits = 0`) the input
`"1.23"` has two digits after the separator, yet `Parse` succeeds with
123 instead of failing with `TooManyDecimals`: the claim as stated is
false for currencies with `fraction_digits = 0`. -/
theorem C3_counterexample :
    ParseDefault "1.23" "JPY" = .ok 123
    ∧ ParseDefault "1.23" "JPY" ≠ .error .TooManyDecimals := by
  exact ⟨by decide, by decide⟩

/-- C3 (amended): whenever the scanned fractional digit sequence is
longer than the currency's `fraction_digits`, the parse fails with
`TooManyDecimals` (so, in particular, for every currency with
`fraction_digits > 0`, inputs carrying more fractional digits than the
currency allows fail); for `fraction_digits = 0` currencies the decimal
separator is instead treated as a grouping character and the following
digits extend the integer part, so `"1.23"` for JPY parses to 123. -/
theorem C3_amended :
    (∀ (cur : Currency) (sign : Int) (st : ScanState),
      cur.Fraction < st.fracDigitsRunes.length →
      finishScan cur sign st = .error .TooManyDecimals)
    ∧ ParseDefault "1.234" "EUR" = .error .TooManyDecimals
    ∧ ParseDefault "1.23" "JPY" = .ok 123 := by
  refine ⟨?_, by decide, by decide⟩
  intro cur sign st h
  have h0 : ¬(st.intDigits = [] ∧ st.fracDigitsRunes = []) := by
    intro hc
    rw [hc.2] at h
    exact Nat.not_lt_zero _ h
  unfold finishScan
  rw [if_neg h0, if_pos h]

/-- C3 witness: the amended statement applied to EUR with a scanned
fractional sequence of three digits. -/
theorem C3_amended_witness :
    finishScan EUR 1 ⟨"1".data, "234".data, true, Char.ofNat 48⟩
      = .error .TooManyDecimals :=
  C3_amended.1 EUR 1 ⟨"1".data, "234".data, true, Char.ofNat 48⟩ (by decide)

/-- C4: with `strict_grouping = true`, any scan whose first two
grouping characters (among space, comma, period, neither acting as the
currency's decimal separator) differ fails with `MixedGrouping`;
`parse("10 000,000.00", "USD", strict_grouping=true)` is
`MixedGrouping` while the same input is accepted with
`strict_grouping=false`; and once the decimal separator has been seen
(`hasDec = true`), no scan step can raise `MixedGrouping`. -/
theorem C4_strict_grouping :
    (∀ (opt : ParserOptions) (dec : Char) (frac : Nat) (d1 mid rest : List Char)
        (g1 g2 : Char),
      opt.StrictGrouping = true →
      (g1 = ' ' ∨ g1 = ',' ∨ g1 = '.') →
      (g2 = ' ' ∨ g2 = ',' ∨ g2 = '.') →
      g1 ≠ g2 →
      ¬(g1 = dec ∧ 0 < frac) →
      ¬(g2 = dec ∧ 0 < frac) →
      (∀ c ∈ d1, '0' ≤ c ∧ c ≤ '9') →
      (∀ c ∈ mid, ('0' ≤ c ∧ c ≤ '9') ∨ c = g1) →
      scanChars opt dec frac (d1 ++ g1 :: (mid ++ g2 :: rest)) initScanState
        = .error .MixedGrouping)
    ∧ Parse (NewAmountParser [WithStrictGrouping true]) "10 000,000.00".data "USD".data
        = .error .MixedGrouping
    ∧ Parse (NewAmountParser [WithStrictGrouping false]) "10 000,000.00".data "USD".data
        = .ok 1000000000
    ∧ (∀ (opt : ParserOptions) (dec : Char) (frac : Nat) (st : ScanState) (r : Char),
        st.hasDec = true → scanStep opt dec frac st r ≠ .error .MixedGrouping) := by
  refine ⟨?_, by decide, by decide, ?_⟩
  · intro opt dec frac d1 mid rest g1 g2 hstrict hg1 hg2 hne hnd1 hnd2 hd1 hmid
    have hg148 : g1 ≠ Char.ofNat 48 := by
      rcases hg1 with rfl | rfl | rfl <;> decide
    have h1 : scanChars opt dec frac (d1 ++ g1 :: (mid ++ g2 :: rest)) initScanState
        = scanChars opt dec frac (g1 :: (mid ++ g2 :: rest))
            ⟨[] ++ d1, [], false, Char.ofNat 48⟩ :=
      scanChars_append_ok _ (scan_digits d1 hd1 [] [] (Char.ofNat 48))
    rw [h1]
    have hstep1 : scanStep opt dec frac ⟨[] ++ d1, [], false, Char.ofNat 48⟩ g1
        = .ok ⟨[] ++ d1, [], false, g1⟩ := by
      rw [scanStep_group hg1 (fun hc => hnd1 ⟨hc.1, hc.2.2⟩), if_pos hstrict,
        if_neg (fun hc => hc.2.1 rfl)]
    rw [scanChars_cons_ok _ hstep1]
    obtain ⟨i2, f2, hsc⟩ := scan_mid hstrict hg1 hnd1 mid hmid ([] ++ d1) []
    rw [scanChars_append_ok _ hsc]
    have hstep2 : scanStep opt dec frac ⟨i2, f2, false, g1⟩ g2 = .error .MixedGrouping := by
      rw [scanStep_group hg2 (fun hc => hnd2 ⟨hc.1, hc.2.2⟩), if_pos hstrict,
        if_pos ⟨rfl, hg148, hne⟩]
    rw [scanChars_cons_err rest hstep2]
  · intro opt dec frac st r h
    unfold scanStep
    by_cases h1 : '0' ≤ r ∧ r ≤ '9'
    · rw [if_pos h1]
      by_cases h2 : st.hasDec = true
      · rw [if_pos h2]; simp
      · rw [if_neg h2]; simp
    · rw [if_neg h1]
      by_cases h2 : r = dec ∧ st.hasDec = false ∧ 0 < frac
      · rw [if_pos h2]; simp
      · rw [if_neg h2]
        by_cases h3 : r = ' ' ∨ r = ',' ∨ r = '.'
        · rw [if_pos h3]
          by_cases h4 : opt.StrictGrouping = true
          · rw [if_pos h4,
              if_neg (fun hc => by rw [h] at hc; exact Bool.noConfusion hc.1)]
            simp
          · rw [if_neg h4]; simp
        · rw [if_neg h3]; simp

/-- C4 witness: the general mixed-grouping statement instantiated at
the strict USD scan of `"10 000,000.00"` (digits `10`, space, digits
`000`, comma). -/
theorem C4_strict_grouping_witness :
    scanChars ⟨false, true, false⟩ '.' 2
        ("10".data ++ ' ' :: ("000".data ++ ',' :: "000.00".data)) initScanState
      = .error .MixedGrouping :=
  C4_strict_grouping.1 ⟨false, true, false⟩ '.' 2 "10".data "000".data "000.00".data
    ' ' ',' rfl (Or.inl rfl) (Or.inr (Or.inl rfl)) (by decide) (by decide) (by decide)
    (by decide) (by decide)

/-- C5 counterexample: with both gates disabled
(`accept_signs=false`, `allow_currency_symbol=false`), `Parse("-€5",
"EUR")` fails with `SignsNotAllowed`, not `CurrencySymbolNotAllowed`:
the claimed gate order is false on the code. -/
theorem C5_counterexample :
    Parse ⟨false, false, false⟩ "-€5".data "EUR".data = .error .SignsNotAllowed
    ∧ Parse ⟨false, false, false⟩ "-€5".data "EUR".data
        ≠ .error .CurrencySymbolNotAllowed := by
  exact ⟨by decide, by decide⟩

/-- C5 (amended): the sign gate runs before the currency-symbol gate:
whenever `accept_signs` is false and the trimmed input begins with a
sign character (and the currency resolves), `Parse` fails with
`SignsNotAllowed` — even if the input also contains a currency symbol,
as in `"-€5"` with both gates disabled. -/
theorem C5_amended :
    (∀ (opt : ParserOptions) (input q : List Char) (cur : Currency),
      opt.AcceptSigns = false →
      containsSign (trimSpace input) = true →
      trimSpace input ≠ [] →
      lookupCurrency (trimSpace q) = .ok cur →
      Parse opt input q = .error .SignsNotAllowed)
    ∧ Parse ⟨false, false, false⟩ "-€5".data "EUR".data = .error .SignsNotAllowed := by
  refine ⟨?_, by decide⟩
  intro opt input q cur hA hsign hne hl
  have hq := lookup_ok_ne_nil hl
  simp only [Parse, hl]
  rw [if_neg hne, if_neg hq, if_pos ⟨hA, hsign⟩]

/-- C5 witness: the amended statement applied to `"-€5"`/EUR with both
gates disabled. -/
theorem C5_amended_witness :
    Parse ⟨false, false, false⟩ "-€5".data "EUR".data = .error .SignsNotAllowed :=
  C5_amended.1 ⟨false, false, false⟩ "-€5".data "EUR".data EUR rfl (by decide)
    (by decide) (by decide)

/-- C6: when the decimal separator has already been consumed
(`hasDec = true`), any further space, comma or period — in particular a
second occurrence of the currency's decimal separator — is handled by
the grouping-separator case (no error; only `lastSeenRune` may change),
digits continue to extend the fractional sequence, and
`parse("1.2.3", "EUR", defaults)` succeeds with 123. -/
theorem C6_second_separator :
    (∀ (opt : ParserOptions) (dec : Char) (frac : Nat) (st : ScanState) (r : Char),
      st.hasDec = true → (r = ' ' ∨ r = ',' ∨ r = '.') →
      scanStep opt dec frac st r =
        .ok (if opt.StrictGrouping then { st with lastSeenRune := r } else st))
    ∧ (∀ (opt : ParserOptions) (dec : Char) (frac : Nat) (st : ScanState) (r : Char),
      st.hasDec = true → '0' ≤ r → r ≤ '9' →
      scanStep opt dec frac st r =
        .ok { st with fracDigitsRunes := st.fracDigitsRunes ++ [r] })
    ∧ ParseDefault "1.2.3" "EUR" = .ok 123 := by
  refine ⟨?_, ?_, by decide⟩
  · intro opt dec frac st r h hg
    have hnd : ¬(r = dec ∧ st.hasDec = false ∧ 0 < frac) := by
      intro hc
      rw [h] at hc
      exact Bool.noConfusion hc.2.1
    rw [scanStep_group hg hnd]
    cases hs : opt.StrictGrouping with
    | true =>
      rw [if_pos rfl, if_neg (fun hc => by rw [h] at hc; exact Bool.noConfusion hc.1),
        if_pos rfl]
    | false =>
      rw [if_neg (by simp), if_neg (by simp)]
  · intro opt dec frac st r h h1 h2
    rw [scanStep_digit h1 h2, if_pos h]

/-- C6 witness: a second `'.'` after the decimal has been seen is a
plain grouping step for EUR-style metadata (strict grouping off). -/
theorem C6_second_separator_witness :
    scanStep ⟨false, false, true⟩ '.' 2 ⟨"1".data, "2".data, true, Char.ofNat 48⟩ '.'
      = .ok ⟨"1".data, "2".data, true, Char.ofNat 48⟩ :=
  C6_second_separator.1 ⟨false, false, true⟩ '.' 2
    ⟨"1".data, "2".data, true, Char.ofNat 48⟩ '.' rfl (Or.inr (Or.inr rfl))

/-- C7: `NewAmountParser` with at least one option folds the options
over the zero-valued struct instead of `DefaultOptions()`, so a parser
built with only `WithStrictGrouping(true)` has `AcceptSigns = false` —
contradicting the documented default `accept_signs = true` — and
`Parse("-100", "JPY")` on it fails with `SignsNotAllowed`, whereas
under the documented defaults it parses to -100. -/
theorem C7_option_defaults_bug :
    NewAmountParser [WithStrictGrouping true]
      = { AllowCurrencySymbol := false, StrictGrouping := true, AcceptSigns := false }
    ∧ DefaultOptions.AcceptSigns = true
    ∧ Parse (NewAmountParser [WithStrictGrouping true]) "-100".data "JPY".data
        = .error .SignsNotAllowed
    ∧ Parse DefaultOptions "-100".data "JPY".data = .ok (-100) := by
  exact ⟨by decide, rfl, by decide, by decide⟩

/-- C8 counterexample: `Parse("", "ZZZ")` returns `EmptyInput`, not the
invalid-ISO resolution error: the empty-input check precedes currency
resolution. -/
theorem C8_counterexample :
    ParseDefault "" "ZZZ" = .error .EmptyInput
    ∧ ParseDefault "" "ZZZ" ≠ .error .InvalidISO := by
  exact ⟨by decide, by decide⟩

/-- C8 (amended): `Parse` composes currency resolution and amount
parsing, and for every input that is nonempty after trimming (and a
nonempty currency argument), a failing resolution propagates the
resolver's error; for empty input the empty-input check runs first, so
`Parse("", "ZZZ")` returns `EmptyInput` rather than the invalid-ISO
error, while `Parse("1", "ZZZ")` returns the invalid-ISO error. -/
theorem C8_amended :
    (∀ (opt : ParserOptions) (input q : List Char) (e : Err),
      trimSpace input ≠ [] → q ≠ [] →
      lookupCurrency (trimSpace q) = .error e →
      Parse opt input q = .error e)
    ∧ ParseDefault "" "ZZZ" = .error .EmptyInput
    ∧ ParseDefault "1" "ZZZ" = .error .InvalidISO := by
  refine ⟨?_, by decide, by decide⟩
  intro opt input q e h1 h2 hl
  simp only [Parse, hl]
  rw [if_neg h1, if_neg h2]

/-- C8 witness: the resolver error for the unknown code `"ZZZ"`
propagates through `Parse` on the nonempty input `"1"`. -/
theorem C8_amended_witness :
    Parse DefaultOptions "1".data "ZZZ".data = .error .InvalidISO :=
  C8_amended.1 DefaultOptions "1".data "ZZZ".data .InvalidISO (by decide) (by decide)
    (by decide)

/-- C9: `Parse` performs no overflow detection: the digit accumulation
of `atoiRunes` and the final assembly wrap in 64-bit arithmetic, so a
string of twenty `'9'` characters parses without error to the exact
amount reduced modulo `2^64` and interpreted as a signed 64-bit value —
not to the exact amount. -/
theorem C9_wrapping :
    ParseDefault "99999999999999999999" "JPY" = .ok 7766279631452241919
    ∧ atoiRunes "99999999999999999999".data = .ok (int64wrap 99999999999999999999)
    ∧ int64wrap 99999999999999999999 = 7766279631452241919
    ∧ (7766279631452241919 : Int) ≠ 99999999999999999999 := by
  exact ⟨by decide, by decide, by decide, by decide⟩

/-- C10: with `allow_currency_symbol = false` (and signs accepted, as
by default), every input containing a character that lowercases to one
of the single-letter tokens `d g k l p q r t` of the fixed list — all
of which are in the list — fails with `CurrencySymbolNotAllowed` once
the currency resolves; e.g. `"1k"` for JPY, which contains no Unicode
currency-symbol character. -/
theorem C10_letter_tokens :
    (∀ (opt : ParserOptions) (input q : List Char) (cur : Currency) (ch : Char),
      opt.AllowCurrencySymbol = false →
      opt.AcceptSigns = true →
      ch ∈ input →
      toLowerGo ch ∈ ['d', 'g', 'k', 'l', 'p', 'q', 'r', 't'] →
      lookupCurrency (trimSpace q) = .ok cur →
      Parse opt input q = .error .CurrencySymbolNotAllowed)
    ∧ (∀ x ∈ ['d', 'g', 'k', 'l', 'p', 'q', 'r', 't'], [x] ∈ currencyTokens)
    ∧ ParseDefault "1k" "JPY" = .error .CurrencySymbolNotAllowed := by
  refine ⟨?_, by decide, by decide⟩
  intro opt input q cur ch hAllow hSigns hch hlet hl
  have hq := lookup_ok_ne_nil hl
  have hchns : isSpaceGo ch = false := by
    cases hsp : isSpaceGo ch with
    | false => rfl
    | true =>
      exfalso
      rw [toLowerGo_space_fix hsp] at hlet
      have hns : ∀ x ∈ ['d', 'g', 'k', 'l', 'p', 'q', 'r', 't'], isSpaceGo x = false := by
        decide
      rw [hns ch hlet] at hsp
      exact Bool.noConfusion hsp
  have hmem : ch ∈ trimSpace input := mem_trimSpace_of_nonspace hchns hch
  have hne : trimSpace input ≠ [] := by
    intro hc
    rw [hc] at hmem
    exact absurd hmem (List.not_mem_nil ch)
  have hccs : containsCurrencySymbol (trimSpace input) = true := by
    unfold containsCurrencySymbol
    apply Bool.or_eq_true_iff.mpr
    right
    apply List.any_eq_true.mpr
    refine ⟨[toLowerGo ch], ?_, ?_⟩
    · have htk : ∀ x ∈ ['d', 'g', 'k', 'l', 'p', 'q', 'r', 't'],
          [x] ∈ currencyTokens := by decide
      exact htk _ hlet
    · exact (containsSub_singleton _ _).mpr (List.mem_map_of_mem toLowerGo hmem)
  simp only [Parse, hl]
  rw [if_neg hne, if_neg hq,
    if_neg (fun hc => by rw [hSigns] at hc; exact Bool.noConfusion hc.1),
    if_pos ⟨hAllow, hccs⟩]

/-- C10 witness: the general statement applied to `"1k"`/JPY under the
default options. -/
theorem C10_letter_tokens_witness :
    Parse DefaultOptions "1k".data "JPY".data = .error .CurrencySymbolNotAllowed :=
  C10_letter_tokens.1 DefaultOptions "1k".data "JPY".data JPY 'k' rfl rfl (by decide)
    (by decide) (by decide)

end GoMoney
